import Mathlib

/-!
Verification of the Soap-Bubbles fractal library.

Shallow embedding of the escape-time fractal renderer: the complex
arithmetic, the escape-time evaluator, the palette and color
interpolation routines, and the tiled render scheduler, together with
theorems settling the specification claims against them.

JavaScript `Number` arithmetic is idealized as exact rational
arithmetic (`ℚ`); every concrete input used below is exactly
representable as a binary double, so the rational computations agree
with the floating-point ones.  `Math.log` / `Math.sin` are
transcendental; statements about them live over `ℝ` (`Real.log`) in
theorem statements, while the palette abstracts the sine-derived blend
weight as an arbitrary rational-valued function.
-/

set_option autoImplicit false
set_option maxRecDepth 10000

namespace Frac

/-- Complex number as in the source: `{"imaginary": v, "real": v}`.
Named `Cx` to avoid shadowing Mathlib's `ℂ`, which we use to interpret it. -/
structure Cx where
  real : ℚ
  imaginary : ℚ
  deriving DecidableEq, Repr

/-- Source function `add(complex1, complex2)`, from the source (identical in all variants). -/
def add (complex1 complex2 : Cx) : Cx :=
  ⟨complex1.real + complex2.real, complex1.imaginary + complex2.imaginary⟩

/-- Source function `multiply(complex1, complex2)`, from the source (identical in all variants). -/
def multiply (complex1 complex2 : Cx) : Cx :=
  ⟨complex1.real * complex2.real - complex1.imaginary * complex2.imaginary,
   complex1.real * complex2.imaginary + complex1.imaginary * complex2.real⟩

/-- Source function `magnitude2(complex)`. -/
def magnitude2 (complex : Cx) : ℚ :=
  complex.imaginary * complex.imaginary + complex.real * complex.real

/-- Source function `eval(variable, constant)` from `part_000` (v1.0): the standard quadratic
map `P(z) = z² + c`; the component-wise absolute-value line is commented out
in that file.  (`variable`/`constant` are keywords in Lean, hence `z`/`c`.) -/
def eval (z c : Cx) : Cx :=
  add c (multiply z z)

namespace Ship

/-- The component-wise absolute value taken by the `fractals.js` / `part_001`
variant of `eval` before squaring:
`var z = {"imaginary": Math.abs(...), "real": Math.abs(...)}`. -/
def absZ (z : Cx) : Cx :=
  ⟨|z.real|, |z.imaginary|⟩

/-- Source function `eval(variable, constant)` from `fractals.js` (also `part_001`): takes the
component-wise absolute value of `z` before squaring (burning-ship family). -/
def eval (z c : Cx) : Cx :=
  Frac.add c (Frac.multiply (absZ z) (absZ z))

end Ship

/-- One pass of the escape-time loop of `graph` (`part_000`, lines 83–91):
`while (m < threshold && count < max_iter) { z = eval(z, c); count++;
m = magnitude2(z); }` with `threshold = 4`.  The fuel is
`max_iter - count`, so fuel `0` is exactly `count = max_iter`. -/
def escapeAux (c : Cx) : ℕ → Cx → ℕ → ℚ → ℕ × ℚ
  | 0, _, count, m => (count, m)
  | fuel + 1, z, count, m =>
    if m < 4 then
      let z' := eval z c
      escapeAux c fuel z' (count + 1) (magnitude2 z')
    else (count, m)

/-- The escape-time evaluator: runs the loop of `graph` from
`z = (0,0)`, `count = 0`, `m = 0` and returns `(count, m)` at exit. -/
def escape (max_iter : ℕ) (c : Cx) : ℕ × ℚ :=
  escapeAux c max_iter ⟨0, 0⟩ 0 0

/-- Interpretation of the source's complex pairs in Mathlib's `ℂ`. -/
def toC (z : Cx) : ℂ :=
  ⟨(z.real : ℝ), (z.imaginary : ℝ)⟩

theorem toC_add (z w : Cx) : toC (add z w) = toC z + toC w := by
  apply Complex.ext <;> simp [toC, add]

theorem toC_multiply (z w : Cx) : toC (multiply z w) = toC z * toC w := by
  apply Complex.ext <;>
    simp [toC, multiply, Complex.mul_re, Complex.mul_im]

/-- If the escape loop exits before exhausting its fuel, the exit was caused
by the magnitude test, so the final squared magnitude is at least `4`. -/
theorem escapeAux_exit_ge_four (c : Cx) :
    ∀ (fuel : ℕ) (z : Cx) (count : ℕ) (m : ℚ),
      (escapeAux c fuel z count m).1 < count + fuel →
      4 ≤ (escapeAux c fuel z count m).2 := by
  intro fuel
  induction fuel with
  | zero =>
    intro z count m h
    simp [escapeAux] at h
  | succ n ih =>
    intro z count m h
    by_cases hm : m < 4
    · simp only [escapeAux, if_pos hm] at h ⊢
      apply ih
      omega
    · simp only [escapeAux, if_neg hm] at h ⊢
      exact le_of_not_lt hm

/-! ## Pixel-to-fractal-space mapping

`graph` (`part_000`, lines 34–45 and 78–80) computes
`xf = (rxmax - rxmin)/canvas.width`, `xc = rxmax`, and per pixel
`xac = xf*x - xc` (and symmetrically for `y`). -/

/-- The fractal-space constant derived for pixel `(x, y)` of a `W×H` surface
with caller region `[rxmin, rxmax] × [rymin, rymax]`, exactly as `graph`
computes it: `(xf*x - xc, yf*y - yc)` with `xc = rxmax`, `yc = rymax`. -/
def pixelToC (W H : ℕ) (rxmin rxmax rymin rymax : ℚ) (x y : ℕ) : Cx :=
  ⟨(rxmax - rxmin) / (W : ℚ) * (x : ℚ) - rxmax,
   (rymax - rymin) / (H : ℚ) * (y : ℚ) - rymax⟩

/-! ## Per-pixel coloring dispatch

`graph` (`part_000`, lines 93–102) sets `color = colors[count]` and only
when `count < max_iter - 1` replaces it by the smooth-coloring blend of
`colors[floor(it)]` and `colors[floor(it)+1]`. -/

/-- Which coloring path a pixel takes. -/
inductive ColorPath where
  | smooth
  | plain (idx : ℕ)
  deriving DecidableEq, Repr

/-- The branch taken by the coloring code of `graph` for a result `count`:
the smooth path exactly when `count < max_iter - 1` (JS subtraction, hence
the `ℤ` comparison); otherwise the palette color at index `count` is used
directly. -/
def colorPath (max_iter count : ℕ) : ColorPath :=
  if (count : ℤ) < (max_iter : ℤ) - 1 then ColorPath.smooth else ColorPath.plain count

/-! ## Colors as hex strings

`{Color}` in the source is a string `#RRGGBB`.  `linear_interpolate`
(`part_000`, lines 138–156) parses two-character slices with
`parseInt(·, 16)`, computes `Math.floor(Math.abs(c1 + slope*(c2-c1)))`
per channel, re-encodes with `toString(16)` and pads any string whose
length is not 2 with a single leading zero. -/

/-- Value of one hexadecimal digit character (`0-9`, `a-f`, `A-F`), as
accepted by `parseInt(s, 16)`. -/
def hexVal (c : Char) : Option ℕ :=
  let n := c.toNat
  if 48 ≤ n ∧ n ≤ 57 then some (n - 48)
  else if 97 ≤ n ∧ n ≤ 102 then some (n - 97 + 10)
  else if 65 ≤ n ∧ n ≤ 70 then some (n - 65 + 10)
  else none

/-- Accumulating loop of `parseInt(·, 16)`: consumes digits until the first
non-digit character. -/
def hexAcc : List Char → ℕ → ℕ
  | [], acc => acc
  | c :: cs, acc =>
    match hexVal c with
    | some v => hexAcc cs (16 * acc + v)
    | none => acc

/-- Model of `parseInt(s, 16)`: `none` models the `NaN` returned when the string does
not start with a digit; otherwise the value of the longest digit prefix.
(The sign/whitespace handling of `parseInt` is irrelevant for the
two-character color slices used by the source.) -/
def jsParseHex (l : List Char) : Option ℕ :=
  match l with
  | [] => none
  | c :: cs =>
    match hexVal c with
    | some v => some (hexAcc cs v)
    | none => none

/-- Model of `parseInt(s.substring(i, i+2), 16)`, the access pattern of
`linear_interpolate`. -/
def sliceHex (s : String) (i : ℕ) : Option ℕ :=
  jsParseHex ((s.toList.drop i).take 2)

/-- Model of `n.toString(16)` for a nonnegative integer: lowercase hex digits,
no leading zeros. -/
def hexStr (n : ℕ) : String :=
  String.mk (Nat.toDigits 16 n)

/-- The padding step of `linear_interpolate`:
`r = (r.length == 2) ? r : "0" + r`. -/
def pad2 (s : String) : String :=
  if s.length == 2 then s else "0" ++ s

/-- One channel of `linear_interpolate`:
`Math.floor(Math.abs(c1 + slope*(c2 - c1)))`. -/
def interpChannel (c1 c2 : ℕ) (slope : ℚ) : ℕ :=
  (⌊|(c1 : ℚ) + slope * ((c2 : ℚ) - (c1 : ℚ))|⌋).toNat

/-- Source function `linear_interpolate(color1, color2, slope)` from `part_000`:
`none` models the `NaN`-corrupted result produced when a channel slice of
an input fails to parse. -/
def linear_interpolate (color1 color2 : String) (slope : ℚ) : Option String := do
  let r1 ← sliceHex color1 1
  let r2 ← sliceHex color2 1
  let g1 ← sliceHex color1 3
  let g2 ← sliceHex color2 3
  let b1 ← sliceHex color1 5
  let b2 ← sliceHex color2 5
  some ("#" ++ pad2 (hexStr (interpChannel r1 r2 slope))
            ++ pad2 (hexStr (interpChannel g1 g2 slope))
            ++ pad2 (hexStr (interpChannel b1 b2 slope)))

/-- The RGB triple denoted by a `#RRGGBB` string, read with the same
slicing as the source. -/
def parseColor (s : String) : Option (ℕ × ℕ × ℕ) := do
  let r ← sliceHex s 1
  let g ← sliceHex s 3
  let b ← sliceHex s 5
  some (r, g, b)

/-- Well-formedness of a color string: `#` followed by exactly six hex
digits. -/
def isColor (s : String) : Bool :=
  match s.toList with
  | ['#', a, b, c, d, e, f] =>
    (hexVal a).isSome && (hexVal b).isSome && (hexVal c).isSome &&
      (hexVal d).isSome && (hexVal e).isSome && (hexVal f).isSome
  | _ => false

/-- Follows the spec's words (§4.4), for comparison with the source's
`interpChannel`: `channel = round(|c1 + t*(c2-c1)|)` clamped into
`[0,255]` (the value is already nonnegative after the absolute value, so
the clamp is the `min` with 255); `round` is JavaScript half-up rounding
`⌊x + 1/2⌋`. -/
def specInterpChannel (c1 c2 : ℕ) (t : ℚ) : ℕ :=
  min 255 (⌊|(c1 : ℚ) + t * ((c2 : ℚ) - (c1 : ℚ))| + 1/2⌋).toNat

/-! ## Palette

`palette(max_iter)` from `part_000` (lines 164–177) interpolates between
two anchor colors with weight `Math.sin(i * factor)`,
`factor = π/(2*max(1, max_iter-1))`, and pins index `max_iter` to black.
The weight is transcendental (`π`, `sin`), so the palette is modelled
over an arbitrary weight function `w : ℕ → ℚ` standing for
`i ↦ Math.sin(i*factor)`; every theorem about the palette below holds
for all `w`. -/

/-- Anchor `var end_color = '#773399'`. -/
def end_color : String := "#773399"

/-- Anchor `var mid_color = '#CCAA66'`. -/
def mid_color : String := "#CCAA66"

/-- Source function `palette(max_iter)`: entries `0 ≤ i < max_iter` interpolate the anchors
with weight `w i`; entry `max_iter` is `"#000000"`.  The `getD ""` is a
total-function artifact: the anchors always parse, so the default is never
used (`linear_interpolate_anchors_isSome` below). -/
def palette (w : ℕ → ℚ) (max_iter : ℕ) : List String :=
  (List.range max_iter).map (fun i => (linear_interpolate end_color mid_color (w i)).getD "")
    ++ ["#000000"]

/-! ## Helper lemmas about the color machinery -/

/-- A hex digit's value is at most 15. -/
theorem hexVal_le_15 {c : Char} {v : ℕ} (h : hexVal c = some v) : v ≤ 15 := by
  simp only [hexVal] at h
  split_ifs at h <;> simp only [Option.some.injEq] at h <;> omega

/-- Parsing at most two hex digits stays below 256. -/
theorem jsParseHex_le_255 {l : List Char} {v : ℕ} (hlen : l.length ≤ 2)
    (h : jsParseHex l = some v) : v ≤ 255 := by
  match l with
  | [] => simp [jsParseHex] at h
  | [c] =>
    simp only [jsParseHex] at h
    cases hv : hexVal c with
    | none => rw [hv] at h; exact absurd h (by simp)
    | some w =>
      rw [hv] at h
      simp only [Option.some.injEq, hexAcc] at h
      have := hexVal_le_15 hv
      omega
  | [c, d] =>
    simp only [jsParseHex] at h
    cases hv : hexVal c with
    | none => rw [hv] at h; exact absurd h (by simp)
    | some w =>
      rw [hv] at h
      simp only [Option.some.injEq, hexAcc] at h
      have := hexVal_le_15 hv
      cases hv2 : hexVal d with
      | none =>
        simp only [hexAcc, hv2] at h
        omega
      | some w2 =>
        simp only [hexAcc, hv2] at h
        have := hexVal_le_15 hv2
        omega
  | c :: d :: x :: xs => simp at hlen

/-- Any value parsed from a color slice is ≤ 255. -/
theorem sliceHex_le_255 {s : String} {i v : ℕ} (h : sliceHex s i = some v) : v ≤ 255 :=
  jsParseHex_le_255 (List.length_take_le 2 _) h

/-- Evaluation rule for `interpChannel` when the interpolated value is
nonnegative and its floor is known. -/
theorem interpChannel_eval (c1 c2 : ℕ) (slope : ℚ) (n : ℕ)
    (h0 : 0 ≤ (c1 : ℚ) + slope * ((c2 : ℚ) - (c1 : ℚ)))
    (h1 : (n : ℚ) ≤ (c1 : ℚ) + slope * ((c2 : ℚ) - (c1 : ℚ)))
    (h2 : (c1 : ℚ) + slope * ((c2 : ℚ) - (c1 : ℚ)) < (n : ℚ) + 1) :
    interpChannel c1 c2 slope = n := by
  unfold interpChannel
  rw [abs_of_nonneg h0]
  have hfl : ⌊(c1 : ℚ) + slope * ((c2 : ℚ) - (c1 : ℚ))⌋ = (n : ℤ) := by
    rw [Int.floor_eq_iff]
    · push_cast
      exact ⟨h1, h2⟩
  rw [hfl, Int.toNat_natCast]

/-- Interpolating a channel with itself, `interpolate(c, c, t)`, leaves every channel unchanged. -/
theorem interpChannel_self (a : ℕ) (t : ℚ) : interpChannel a a t = a := by
  apply interpChannel_eval <;> push_cast <;> [nlinarith; nlinarith; nlinarith]

/-- Interpolation at weight 0, `interpolate(a, b, 0)`, returns the first channel. -/
theorem interpChannel_zero (a b : ℕ) : interpChannel a b 0 = a := by
  apply interpChannel_eval <;> push_cast <;> [nlinarith; nlinarith; nlinarith]

/-- Interpolation at weight 1, `interpolate(a, b, 1)`, returns the second channel. -/
theorem interpChannel_one (a b : ℕ) : interpChannel a b 1 = b := by
  apply interpChannel_eval <;> push_cast <;> [nlinarith; nlinarith; nlinarith]

/-- For in-gamut channels and a weight in `[0,1]` the interpolated channel
stays in gamut. -/
theorem interpChannel_le_255 {c1 c2 : ℕ} (t : ℚ) (h1 : c1 ≤ 255) (h2 : c2 ≤ 255)
    (ht0 : 0 ≤ t) (ht1 : t ≤ 1) : interpChannel c1 c2 t ≤ 255 := by
  unfold interpChannel
  have hc1 : (c1 : ℚ) ≤ 255 := by exact_mod_cast h1
  have hc2 : (c2 : ℚ) ≤ 255 := by exact_mod_cast h2
  have hc1n : (0 : ℚ) ≤ (c1 : ℚ) := Nat.cast_nonneg c1
  have hc2n : (0 : ℚ) ≤ (c2 : ℚ) := Nat.cast_nonneg c2
  have hx0 : 0 ≤ (c1 : ℚ) + t * ((c2 : ℚ) - (c1 : ℚ)) := by nlinarith
  have hx : (c1 : ℚ) + t * ((c2 : ℚ) - (c1 : ℚ)) ≤ 255 := by nlinarith
  rw [abs_of_nonneg hx0]
  have : ⌊(c1 : ℚ) + t * ((c2 : ℚ) - (c1 : ℚ))⌋ ≤ (255 : ℤ) := by
    calc ⌊(c1 : ℚ) + t * ((c2 : ℚ) - (c1 : ℚ))⌋ ≤ ⌊(255 : ℚ)⌋ := Int.floor_le_floor hx
    _ = 255 := by norm_num
  omega

/-- Extracting the three slice parses from a successful `parseColor`. -/
theorem parseColor_slices {s : String} {r g b : ℕ} (h : parseColor s = some (r, g, b)) :
    sliceHex s 1 = some r ∧ sliceHex s 3 = some g ∧ sliceHex s 5 = some b := by
  unfold parseColor at h
  cases h1 : sliceHex s 1 <;> cases h3 : sliceHex s 3 <;> cases h5 : sliceHex s 5 <;>
    simp [h1, h3, h5] at h <;> simp_all

/-- Evaluation of `linear_interpolate` on colors whose slices parse: the result in terms
of `interpChannel` on the parsed channels. -/
theorem li_parsed {c1 c2 : String} {r1 g1 b1 r2 g2 b2 : ℕ} (slope : ℚ)
    (h1 : parseColor c1 = some (r1, g1, b1)) (h2 : parseColor c2 = some (r2, g2, b2)) :
    linear_interpolate c1 c2 slope =
      some ("#" ++ pad2 (hexStr (interpChannel r1 r2 slope))
               ++ pad2 (hexStr (interpChannel g1 g2 slope))
               ++ pad2 (hexStr (interpChannel b1 b2 slope))) := by
  obtain ⟨a1, a3, a5⟩ := parseColor_slices h1
  obtain ⟨e1, e3, e5⟩ := parseColor_slices h2
  unfold linear_interpolate
  rw [a1, e1, a3, e3, a5, e5]
  rfl

/-- Facts about padded two-digit hex encodings of byte values, checked by
exhaustive evaluation. -/
theorem pad2_hexStr_facts :
    ∀ n, n < 256 → (pad2 (hexStr n)).toList.length = 2 ∧
      jsParseHex (pad2 (hexStr n)).toList = some n ∧
      ((pad2 (hexStr n)).toList.all fun c => (hexVal c).isSome) = true := by
  decide

/-- A color string built from three byte channels is well-formed and parses
back to those channels. -/
theorem mkColor_parse (x y z : ℕ) (hx : x < 256) (hy : y < 256) (hz : z < 256) :
    isColor ("#" ++ pad2 (hexStr x) ++ pad2 (hexStr y) ++ pad2 (hexStr z)) = true ∧
    parseColor ("#" ++ pad2 (hexStr x) ++ pad2 (hexStr y) ++ pad2 (hexStr z)) =
      some (x, y, z) := by
  obtain ⟨hxl, hxp, hxd⟩ := pad2_hexStr_facts x hx
  obtain ⟨hyl, hyp, hyd⟩ := pad2_hexStr_facts y hy
  obtain ⟨hzl, hzp, hzd⟩ := pad2_hexStr_facts z hz
  obtain ⟨a1, a2, ha⟩ := List.length_eq_two.mp hxl
  obtain ⟨b1, b2, hb⟩ := List.length_eq_two.mp hyl
  obtain ⟨c1, c2, hc⟩ := List.length_eq_two.mp hzl
  have ha' : (pad2 (hexStr x)).data = [a1, a2] := ha
  have hb' : (pad2 (hexStr y)).data = [b1, b2] := hb
  have hc' : (pad2 (hexStr z)).data = [c1, c2] := hc
  have hfull : ("#" ++ pad2 (hexStr x) ++ pad2 (hexStr y) ++ pad2 (hexStr z)).toList
      = ['#', a1, a2, b1, b2, c1, c2] := by
    simp [String.toList, ha', hb', hc']
  rw [ha] at hxp hxd
  rw [hb] at hyp hyd
  rw [hc] at hzp hzd
  simp only [List.all_cons, List.all_nil, Bool.and_eq_true, Bool.and_true] at hxd hyd hzd
  constructor
  · simp only [isColor, hfull]
    simp [hxd.1, hxd.2, hyd.1, hyd.2, hzd.1, hzd.2]
  · simp only [parseColor, sliceHex, hfull]
    norm_num [List.drop, List.take]
    rw [hxp, hyp, hzp]
    rfl

/-- A well-formed color string parses to three in-gamut channels. -/
theorem isColor_parse {s : String} (h : isColor s = true) :
    ∃ r g b : ℕ, parseColor s = some (r, g, b) ∧ r < 256 ∧ g < 256 ∧ b < 256 := by
  unfold isColor at h
  split at h
  case h_2 => exact absurd h (by simp)
  case h_1 a b c d e f heq =>
    rw [Bool.and_eq_true, Bool.and_eq_true, Bool.and_eq_true, Bool.and_eq_true,
      Bool.and_eq_true] at h
    obtain ⟨⟨⟨⟨⟨ha, hb⟩, hc⟩, hd⟩, he⟩, hf⟩ := h
    obtain ⟨va, hva⟩ := Option.isSome_iff_exists.mp ha
    obtain ⟨vb, hvb⟩ := Option.isSome_iff_exists.mp hb
    obtain ⟨vc, hvc⟩ := Option.isSome_iff_exists.mp hc
    obtain ⟨vd, hvd⟩ := Option.isSome_iff_exists.mp hd
    obtain ⟨ve, hve⟩ := Option.isSome_iff_exists.mp he
    obtain ⟨vf, hvf⟩ := Option.isSome_iff_exists.mp hf
    refine ⟨16 * va + vb, 16 * vc + vd, 16 * ve + vf, ?_, ?_, ?_, ?_⟩
    · simp only [parseColor, sliceHex, heq]
      norm_num [List.drop, List.take]
      simp [jsParseHex, hexAcc, hva, hvb, hvc, hvd, hve, hvf]
    · have := hexVal_le_15 hva
      have := hexVal_le_15 hvb
      omega
    · have := hexVal_le_15 hvc
      have := hexVal_le_15 hvd
      omega
    · have := hexVal_le_15 hve
      have := hexVal_le_15 hvf
      omega

/-! ## The tiled render scheduler

`graph` (`part_000`, lines 42–43 and 52–111; the cursor logic is identical
in `fractals.js`, lines 24–25 and 32–69) computes tile dimensions
`xd = Math.round(width/40)`, `yd = Math.round(height/20)`, starts the
cursor at `(0,0)` and advances one tile per timer tick: completion check
first, then row wrap, then clear + point-fill of the tile rectangle at the
(wrapped) cursor, then `xcurr += xd`.  Pixel colors are irrelevant to the
tiling claims, so a tick is modelled by its cursor transition (`tickG`)
plus the predicate saying which cells its tile writes cover (`fillsCell`).
The tile dimensions are computed once at session start, hence `xd`, `yd`
are session parameters tied to `xdOf`/`ydOf`. -/

/-- Rounding `Math.round(q)` (half-up). -/
def jsRound (q : ℚ) : ℤ := ⌊q + 1/2⌋

/-- Tile width `var xd = Math.round(xdiff/40)`. -/
def xdOf (W : ℕ) : ℕ := (jsRound ((W : ℚ) / 40)).toNat

/-- Tile height `var yd = Math.round(ydiff/20)`. -/
def ydOf (H : ℕ) : ℕ := (jsRound ((H : ℚ) / 20)).toNat

theorem xdOf_eq (W : ℕ) : xdOf W = (W + 20) / 40 := by
  unfold xdOf jsRound
  have h : ((W : ℚ) / 40 + 1 / 2) = (((W + 20 : ℕ) : ℤ) : ℚ) / ((40 : ℕ) : ℚ) := by
    push_cast; ring
  rw [h, Rat.floor_intCast_div_natCast]
  have h2 : ((W + 20 : ℕ) : ℤ) / ((40 : ℕ) : ℤ) = (((W + 20) / 40 : ℕ) : ℤ) := by omega
  rw [h2, Int.toNat_natCast]

theorem ydOf_eq (H : ℕ) : ydOf H = (H + 10) / 20 := by
  unfold ydOf jsRound
  have h : ((H : ℚ) / 20 + 1 / 2) = (((H + 10 : ℕ) : ℤ) : ℚ) / ((20 : ℕ) : ℚ) := by
    push_cast; ring
  rw [h, Rat.floor_intCast_div_natCast]
  have h2 : ((H + 10 : ℕ) : ℤ) / ((20 : ℕ) : ℤ) = (((H + 10) / 20 : ℕ) : ℤ) := by omega
  rw [h2, Int.toNat_natCast]

/-- The scheduler's cursor: the mutable `(xcurr, ycurr)` of `graph`. -/
structure Cursor where
  xcurr : ℕ
  ycurr : ℕ
  deriving DecidableEq, Repr

/-- The completion test opening every tick:
`if (xcurr >= xdiff && ycurr >= ydiff)`. -/
def isDone (W H : ℕ) (s : Cursor) : Bool :=
  decide (W ≤ s.xcurr) && decide (H ≤ s.ycurr)

/-- The row-wrap step: `if (xcurr >= xdiff) { xcurr = 0; ycurr += yd; }`. -/
def wrapC (W yd : ℕ) (s : Cursor) : Cursor :=
  if W ≤ s.xcurr then ⟨0, s.ycurr + yd⟩ else s

/-- One timer tick of `graph` (`part_000`, lines 59–111), cursor part:
completion check, wrap, paint tile, `xcurr += xd`. -/
def tickG (W H xd yd : ℕ) (s : Cursor) : Cursor :=
  if isDone W H s then s
  else
    let s' := wrapC W yd s
    ⟨s'.xcurr + xd, s'.ycurr⟩

/-- Whether the tick taken from cursor `s` paints pixel `p`: the tick clears
and point-fills exactly the rectangle `[x', x'+xd) × [y', y'+yd)` at the
wrapped cursor `(x', y')` (with `ptw = 1`), and a completed session paints
nothing. -/
def fillsCell (W H xd yd : ℕ) (s : Cursor) (p : ℕ × ℕ) : Bool :=
  !isDone W H s &&
    (let s' := wrapC W yd s
     decide (s'.xcurr ≤ p.1) && decide (p.1 < s'.xcurr + xd) &&
       decide (s'.ycurr ≤ p.2) && decide (p.2 < s'.ycurr + yd))

/-- Iterated tick: `n` consecutive timer ticks from cursor `s`. -/
def tickN (W H xd yd : ℕ) : ℕ → Cursor → Cursor
  | 0, s => s
  | n + 1, s => tickN W H xd yd n (tickG W H xd yd s)

/-- Cursor after `n` ticks of a fresh session (cursor starts at `(0,0)`). -/
def stepN (W H xd yd : ℕ) (n : ℕ) : Cursor :=
  tickN W H xd yd n ⟨0, 0⟩

theorem tickG_done {W H xd yd : ℕ} {s : Cursor} (h : isDone W H s = true) :
    tickG W H xd yd s = s := by
  unfold tickG
  rw [h]
  rfl

theorem tickN_done {W H xd yd : ℕ} {s : Cursor} (h : isDone W H s = true) :
    ∀ n, tickN W H xd yd n s = s := by
  intro n
  induction n with
  | zero => rfl
  | succ k ih =>
    show tickN W H xd yd k (tickG W H xd yd s) = s
    rw [tickG_done h, ih]

theorem tickN_add (W H xd yd : ℕ) (a b : ℕ) (s : Cursor) :
    tickN W H xd yd (a + b) s = tickN W H xd yd b (tickN W H xd yd a s) := by
  induction a generalizing s with
  | zero =>
    rw [Nat.zero_add]
    rfl
  | succ k ih =>
    have h1 : k + 1 + b = (k + b) + 1 := by omega
    rw [h1]
    show tickN W H xd yd (k + b) (tickG W H xd yd s) =
      tickN W H xd yd b (tickN W H xd yd k (tickG W H xd yd s))
    exact ih (tickG W H xd yd s)

/-- Running along a row: while every visited column start is inside the
surface, each tick moves the cursor one tile to the right. -/
theorem tickN_row (W H xd yd : ℕ) :
    ∀ (k j y : ℕ), (∀ i, i < k → (j + i) * xd < W) →
      tickN W H xd yd k ⟨j * xd, y⟩ = ⟨(j + k) * xd, y⟩ := by
  intro k
  induction k with
  | zero => intro j y _; rfl
  | succ n ih =>
    intro j y hcond
    have hx : j * xd < W := by
      have := hcond 0 (by omega)
      simpa using this
    have hstep : tickG W H xd yd ⟨j * xd, y⟩ = ⟨(j + 1) * xd, y⟩ := by
      unfold tickG isDone wrapC
      have : ¬ W ≤ j * xd := by omega
      simp [this]
      ring
    show tickN W H xd yd n (tickG W H xd yd ⟨j * xd, y⟩) = _
    rw [hstep, ih (j + 1) y (fun i hi => by
      have := hcond (i + 1) (by omega)
      have heq : (j + 1 + i) = (j + (i + 1)) := by omega
      rw [heq]
      exact this)]
    have : (j + 1 + n) = (j + (n + 1)) := by omega
    rw [this]

theorem nat_lt_div_succ_mul (a b : ℕ) (hb : 0 < b) : a < (a / b + 1) * b := by
  have h1 := Nat.div_add_mod a b
  have h2 := Nat.mod_lt a hb
  calc a = b * (a / b) + a % b := h1.symm
  _ < b * (a / b) + b := by omega
  _ = (a / b + 1) * b := by ring

/-- The facts needed about the per-row tile count `cols = (W-1)/xd + 1`:
every column start is inside the surface and the row end is past it. -/
theorem cols_facts (W xd : ℕ) (hxd : 0 < xd) (hW : 0 < W) :
    (∀ i, i < (W - 1) / xd + 1 → i * xd < W) ∧ W ≤ ((W - 1) / xd + 1) * xd := by
  constructor
  · intro i hi
    have h1 : i * xd ≤ (W - 1) / xd * xd := Nat.mul_le_mul_right xd (by omega)
    have h2 : (W - 1) / xd * xd ≤ W - 1 := Nat.div_mul_le_self _ _
    omega
  · have := nat_lt_div_succ_mul (W - 1) xd hxd
    omega

/-- After finishing row `r` (all rows before it started inside the surface),
the cursor sits one tile past the right edge of row `r`. -/
theorem tickN_rows (W H xd yd cols : ℕ) (hc1 : 0 < cols)
    (factA : ∀ i, i < cols → i * xd < W) (factB : W ≤ cols * xd) :
    ∀ r : ℕ, (∀ k, k < r → k * yd < H) →
      stepN W H xd yd (cols + r * cols) = ⟨cols * xd, r * yd⟩ := by
  intro r
  induction r with
  | zero =>
    intro _
    show tickN W H xd yd (cols + 0 * cols) ⟨0, 0⟩ = _
    have h0 : cols + 0 * cols = cols := by omega
    rw [h0]
    have := tickN_row W H xd yd cols 0 0 (fun i hi => by simpa using factA i hi)
    simpa using this
  | succ r ih =>
    intro hrows
    have hsplit : cols + (r + 1) * cols = (cols + r * cols) + cols := by ring
    unfold stepN
    rw [hsplit, tickN_add]
    have hprev := ih (fun k hk => hrows k (by omega))
    unfold stepN at hprev
    rw [hprev]
    have hry : r * yd < H := hrows r (by omega)
    have hstep : tickG W H xd yd ⟨cols * xd, r * yd⟩ = ⟨xd, r * yd + yd⟩ := by
      unfold tickG isDone wrapC
      have h1 : ¬ H ≤ r * yd := by omega
      simp [factB, h1]
    have hcolssucc : cols = 1 + (cols - 1) := by omega
    nth_rewrite 1 [hcolssucc]
    rw [tickN_add]
    show tickN W H xd yd (cols - 1) (tickG W H xd yd ⟨cols * xd, r * yd⟩) = _
    rw [hstep]
    have h1xd : (⟨xd, r * yd + yd⟩ : Cursor) = ⟨1 * xd, r * yd + yd⟩ := by
      rw [Nat.one_mul]
    rw [h1xd, tickN_row W H xd yd (cols - 1) 1 (r * yd + yd) (fun i hi => by
      have := factA (1 + i) (by omega)
      exact this)]
    have h2 : (1 + (cols - 1)) * xd = cols * xd := by
      have h3 : 1 + (cols - 1) = cols := by omega
      rw [h3]
    rw [h2]
    have h4 : r * yd + yd = (r + 1) * yd := by ring
    rw [h4]

/-- Every tile origin `(qx*xd, qy*yd)` inside the surface is the wrapped
cursor of some not-yet-complete tick of the session. -/
theorem reachWrapped (W H xd yd cols : ℕ) (hc1 : 0 < cols)
    (factA : ∀ i, i < cols → i * xd < W) (factB : W ≤ cols * xd) (hyd : 0 < yd) :
    ∀ qx qy : ℕ, qx * xd < W → qy * yd < H →
      ∃ n, isDone W H (stepN W H xd yd n) = false ∧
        wrapC W yd (stepN W H xd yd n) = ⟨qx * xd, qy * yd⟩ := by
  intro qx qy hqx hqy
  cases qy with
  | zero =>
    refine ⟨qx, ?_, ?_⟩ <;>
      rw [show stepN W H xd yd qx = ⟨qx * xd, 0⟩ from by
        have := tickN_row W H xd yd qx 0 0 (fun i hi => by
          have h1 : i * xd ≤ qx * xd := Nat.mul_le_mul_right xd (by omega)
          simpa using lt_of_le_of_lt h1 hqx)
        simpa using this]
    · simp [isDone]
      omega
    · simp [wrapC]
      omega
  | succ r =>
    have hry : r * yd < H := by
      have h1 : (r + 1) * yd = r * yd + yd := by ring
      omega
    have hrows : ∀ k, k < r → k * yd < H := by
      intro k hk
      have h1 : k * yd ≤ r * yd := Nat.mul_le_mul_right yd (by omega)
      omega
    have hmid := tickN_rows W H xd yd cols hc1 factA factB r hrows
    cases qx with
    | zero =>
      refine ⟨cols + r * cols, ?_, ?_⟩ <;> rw [hmid]
      · simp [isDone]
        omega
      · simp only [wrapC]
        rw [if_pos factB]
        have h1 : r * yd + yd = (r + 1) * yd := by ring
        simp [h1]
    | succ j =>
      have hstate : stepN W H xd yd ((cols + r * cols) + (1 + j))
          = ⟨(j + 1) * xd, (r + 1) * yd⟩ := by
        unfold stepN
        rw [show (cols + r * cols) + (1 + j) = (cols + r * cols) + (j + 1) from by omega]
        rw [tickN_add]
        have hmid' : tickN W H xd yd (cols + r * cols) ⟨0, 0⟩ = ⟨cols * xd, r * yd⟩ := hmid
        rw [hmid']
        have hstep : tickG W H xd yd ⟨cols * xd, r * yd⟩ = ⟨xd, r * yd + yd⟩ := by
          unfold tickG isDone wrapC
          have h1 : ¬ H ≤ r * yd := by omega
          simp [factB, h1]
        show tickN W H xd yd j (tickG W H xd yd ⟨cols * xd, r * yd⟩) = _
        rw [hstep]
        have h1xd : (⟨xd, r * yd + yd⟩ : Cursor) = ⟨1 * xd, r * yd + yd⟩ := by
          rw [Nat.one_mul]
        rw [h1xd, tickN_row W H xd yd j 1 (r * yd + yd) (fun i hi => by
          have h1 : (1 + i) * xd ≤ (j + 1) * xd := Nat.mul_le_mul_right xd (by omega)
          exact lt_of_le_of_lt h1 hqx)]
        have h2 : (1 + j) = (j + 1) := by omega
        have h3 : r * yd + yd = (r + 1) * yd := by ring
        rw [h2, h3]
      refine ⟨(cols + r * cols) + (1 + j), ?_, ?_⟩ <;> rw [hstate]
      · simp [isDone]
        omega
      · simp [wrapC]
        omega

/-- The full scheduler run: termination with a quiescent final state, full
coverage of the surface, and no writes once complete. -/
theorem scheduler_run (W H xd yd : ℕ) (hx1 : 1 ≤ xd) (hy1 : 1 ≤ yd)
    (hW : 1 ≤ W) (hH : 1 ≤ H) :
    (∃ N, isDone W H (stepN W H xd yd N) = true ∧
      ∀ n, N ≤ n → stepN W H xd yd n = stepN W H xd yd N) ∧
    (∀ x y, x < W → y < H →
      ∃ n, fillsCell W H xd yd (stepN W H xd yd n) (x, y) = true) ∧
    (∀ n p, isDone W H (stepN W H xd yd n) = true →
      fillsCell W H xd yd (stepN W H xd yd n) p = false) := by
  obtain ⟨factA, factB⟩ := cols_facts W xd hx1 hW
  obtain ⟨factRA, factRB⟩ := cols_facts H yd hy1 hH
  refine ⟨⟨((W - 1) / xd + 1) + ((H - 1) / yd + 1) * ((W - 1) / xd + 1), ?_, ?_⟩, ?_, ?_⟩
  · rw [tickN_rows W H xd yd ((W - 1) / xd + 1) (Nat.succ_pos _) factA factB
      ((H - 1) / yd + 1) (fun k hk => factRA k hk)]
    simp [isDone]
    exact ⟨factB, factRB⟩
  · intro n hn
    have hdone : isDone W H
        (stepN W H xd yd (((W - 1) / xd + 1) + ((H - 1) / yd + 1) * ((W - 1) / xd + 1)))
        = true := by
      rw [tickN_rows W H xd yd ((W - 1) / xd + 1) (Nat.succ_pos _) factA factB
        ((H - 1) / yd + 1) (fun k hk => factRA k hk)]
      simp [isDone]
      exact ⟨factB, factRB⟩
    have hsplit : stepN W H xd yd n
        = tickN W H xd yd (n - (((W - 1) / xd + 1) + ((H - 1) / yd + 1) * ((W - 1) / xd + 1)))
          (stepN W H xd yd (((W - 1) / xd + 1) + ((H - 1) / yd + 1) * ((W - 1) / xd + 1))) := by
      unfold stepN
      rw [← tickN_add]
      congr 1
      omega
    rw [hsplit, tickN_done hdone]
  · intro x y hx hy
    obtain ⟨n, hdone, hwrap⟩ := reachWrapped W H xd yd ((W - 1) / xd + 1) (Nat.succ_pos _)
      factA factB (by omega) (x / xd) (y / yd)
      (lt_of_le_of_lt (Nat.div_mul_le_self x xd) hx)
      (lt_of_le_of_lt (Nat.div_mul_le_self y yd) hy)
    refine ⟨n, ?_⟩
    simp only [fillsCell, hdone, Bool.not_false, Bool.true_and, hwrap]
    have hx1' : x / xd * xd ≤ x := Nat.div_mul_le_self x xd
    have hx2 : x < x / xd * xd + xd := by
      have := nat_lt_div_succ_mul x xd (by omega)
      have h2 : (x / xd + 1) * xd = x / xd * xd + xd := by ring
      omega
    have hy1' : y / yd * yd ≤ y := Nat.div_mul_le_self y yd
    have hy2 : y < y / yd * yd + yd := by
      have := nat_lt_div_succ_mul y yd (by omega)
      have h2 : (y / yd + 1) * yd = y / yd * yd + yd := by ring
      omega
    simp [hx1', hx2, hy1', hy2]
  · intro n p h
    simp [fillsCell, h]

/-! ## Superseding a running session

Modelled from the spec: the timer registry and the supersede behavior live
in the repository's page code, which holds the interval handle that
`graph` returns (`@return {Integer} - returns int id of timer used to pace
fractal loading`); that caller is not under `src/`.  Spec §4.6/§5: "a new
render request for the same surface preempts an in-progress one; the old
session's subsequent ticks are dropped (the old timer/task handle is
invalidated)".  The model keeps the old and the new session's cursors, a
liveness flag for the old session's handle, and counts the surface writes
(one `clearRect` plus `xd*yd` point fills per live, unfinished tick) that
the old session performs. -/

/-- Joint state of a superseded-and-superseding pair of render sessions for
one surface. -/
structure TwoSessions where
  oldAlive : Bool
  oldCur : Cursor
  newCur : Cursor
  deriving DecidableEq, Repr

/-- Events observable at the scheduling boundary: a timer tick delivered to
the old session's handle, one delivered to the new session's, and the
supersede (new render request) that invalidates the old handle. -/
inductive SEvent where
  | tickOld
  | tickNew
  | supersede
  deriving DecidableEq, Repr

/-- Surface writes performed by one delivered tick of a session at cursor
`s`: the tile clear plus one fill per pixel of the `xd×yd` tile; a
completed session returns before writing. -/
def tickWriteCount (W H xd yd : ℕ) (s : Cursor) : ℕ :=
  if isDone W H s then 0 else xd * yd + 1

/-- One event step: ticks delivered to an invalidated handle are dropped
(spec §4.6); the second component counts the old session's surface
writes during the event. -/
def sstep (W H xd yd : ℕ) (st : TwoSessions) : SEvent → TwoSessions × ℕ
  | SEvent.tickOld =>
    if st.oldAlive then
      (⟨st.oldAlive, tickG W H xd yd st.oldCur, st.newCur⟩,
        tickWriteCount W H xd yd st.oldCur)
    else (st, 0)
  | SEvent.tickNew => (⟨st.oldAlive, st.oldCur, tickG W H xd yd st.newCur⟩, 0)
  | SEvent.supersede => (⟨false, st.oldCur, st.newCur⟩, 0)

/-- Run a list of events; the second component is the total number of
surface writes performed by the old session over the run. -/
def srun (W H xd yd : ℕ) : TwoSessions → List SEvent → TwoSessions × ℕ
  | st, [] => (st, 0)
  | st, e :: es =>
    let p := sstep W H xd yd st e
    let q := srun W H xd yd p.1 es
    (q.1, p.2 + q.2)

/-- No event revives an invalidated handle. -/
theorem sstep_dead (W H xd yd : ℕ) (st : TwoSessions) (e : SEvent)
    (h : st.oldAlive = false) : (sstep W H xd yd st e).1.oldAlive = false := by
  cases e <;> simp [sstep, h]

/-- A session whose handle is invalidated performs no writes over any event
sequence, and its handle stays invalidated. -/
theorem srun_dead (W H xd yd : ℕ) :
    ∀ (evs : List SEvent) (st : TwoSessions), st.oldAlive = false →
      (srun W H xd yd st evs).2 = 0 ∧ (srun W H xd yd st evs).1.oldAlive = false := by
  intro evs
  induction evs with
  | nil =>
    intro st h
    exact ⟨rfl, h⟩
  | cons e es ih =>
    intro st h
    have hstep : (sstep W H xd yd st e).2 = 0 := by
      cases e <;> simp [sstep, h]
    have halive := sstep_dead W H xd yd st e h
    obtain ⟨h1, h2⟩ := ih (sstep W H xd yd st e).1 halive
    constructor
    · show (sstep W H xd yd st e).2 + (srun W H xd yd (sstep W H xd yd st e).1 es).2 = 0
      rw [hstep, h1]
    · exact h2

/-- After running any event sequence ending in a supersede, the old handle
is invalidated. -/
theorem srun_supersede_dead (W H xd yd : ℕ) :
    ∀ (evs : List SEvent) (st : TwoSessions),
      (srun W H xd yd st (evs ++ [SEvent.supersede])).1.oldAlive = false := by
  intro evs
  induction evs with
  | nil =>
    intro st
    rfl
  | cons e es ih =>
    intro st
    exact ih (sstep W H xd yd st e).1

/-! ## Concrete evaluations

`decide` cannot reduce `ℚ` arithmetic in the kernel, so concrete runs of
the evaluator, the tile sizes, and floor computations are established
once here by `norm_num`. -/

theorem xdOf_61 : xdOf 61 = 2 := (xdOf_eq 61).trans rfl

theorem ydOf_10 : ydOf 10 = 1 := (ydOf_eq 10).trans rfl

theorem xdOf_40 : xdOf 40 = 1 := (xdOf_eq 40).trans rfl

theorem ydOf_20 : ydOf 20 = 1 := (ydOf_eq 20).trans rfl

theorem one_le_xdOf_40 : 1 ≤ xdOf 40 := by rw [xdOf_40]

theorem one_le_ydOf_20 : 1 ≤ ydOf 20 := by rw [ydOf_20]

/-- Point `c = 2` escapes at the first magnitude check: `z₁ = 2`, `m = 4`. -/
theorem escape_two_iter2 : escape 2 ⟨2, 0⟩ = (1, 4) := by
  norm_num [escape, escapeAux, eval, add, multiply, magnitude2]

/-- Point `c = 2` with budget 3: same escape. -/
theorem escape_two_iter3 : escape 3 ⟨2, 0⟩ = (1, 4) := by
  norm_num [escape, escapeAux, eval, add, multiply, magnitude2]

theorem escape_two_iter3_count : (escape 3 ⟨2, 0⟩).1 < 3 := by
  rw [escape_two_iter3]
  decide

theorem escape_two_iter3_count_succ : (escape 3 ⟨2, 0⟩).1 + 1 < 3 := by
  rw [escape_two_iter3]
  decide

/-- Point `c = 100` escapes immediately with a huge magnitude: `z₁ = 100`,
`m = 10000`. -/
theorem escape_hundred_iter4 : escape 4 ⟨100, 0⟩ = (1, 10000) := by
  norm_num [escape, escapeAux, eval, add, multiply, magnitude2]

/-- The spec's rounded-and-clamped channel at the half-way blend of 0 and
255 is 128 (where the source computes 127). -/
theorem specInterpChannel_half : specInterpChannel 0 255 (1/2) = 128 := by
  unfold specInterpChannel
  have h1 : ⌊|((0 : ℕ) : ℚ) + (1/2 : ℚ) * (((255 : ℕ) : ℚ) - ((0 : ℕ) : ℚ))| + 1/2⌋
      = (128 : ℤ) := by
    rw [show |((0 : ℕ) : ℚ) + (1/2 : ℚ) * (((255 : ℕ) : ℚ) - ((0 : ℕ) : ℚ))|
        = 255/2 from by push_cast; rw [abs_of_nonneg] <;> norm_num]
    rw [Int.floor_eq_iff] <;> norm_num
  rw [h1]
  rfl

/-- The source's floored channel at the same input is 127. -/
theorem interpChannel_half : interpChannel 0 255 (1/2) = 127 :=
  interpChannel_eval 0 255 (1/2) 127 (by norm_num) (by norm_num) (by norm_num)

/-- At `count = 1`, `m = 10000` the normalized iteration count
`it = count + 1 - nu` of the smooth-coloring formula is negative, so
`Math.floor(it)` is a negative palette index. -/
theorem floor_it_neg_at_10000 :
    ⌊(1 : ℝ) + 1 - Real.log (Real.log 10000 / 2 / Real.log 2) / Real.log 2⌋ < 0 := by
  have hl2 : (0 : ℝ) < Real.log 2 := Real.log_pos (by norm_num)
  have h256 : Real.log 256 < Real.log 10000 :=
    Real.log_lt_log (by norm_num) (by norm_num)
  have h256' : Real.log 256 = 8 * Real.log 2 := by
    rw [show (256 : ℝ) = 2 ^ 8 by norm_num, Real.log_pow]
    norm_num
  have hx : (4 : ℝ) < Real.log 10000 / 2 / Real.log 2 := by
    rw [lt_div_iff₀ hl2]
    rw [lt_div_iff₀ (by norm_num : (0:ℝ) < 2)] at *
    nlinarith
  have hnu : (2 : ℝ) < Real.log (Real.log 10000 / 2 / Real.log 2) / Real.log 2 := by
    rw [lt_div_iff₀ hl2]
    have hlog4 : Real.log 4 = 2 * Real.log 2 := by
      rw [show (4 : ℝ) = 2 ^ 2 by norm_num, Real.log_pow]
      norm_num
    have := Real.log_lt_log (by norm_num : (0:ℝ) < 4) hx
    nlinarith
  have hneg : (1 : ℝ) + 1 - Real.log (Real.log 10000 / 2 / Real.log 2) / Real.log 2 < 0 := by
    linarith
  exact Int.floor_lt.mpr (by simpa using hneg)

/-! ## The claims -/

/-- C1 (counterexample): the claim quantifies over both cited `eval`
implementations, but the `fractals.js` variant takes component-wise
absolute values first: at `z = -1 + i`, `c = 0` it returns `2i` while
`multiply(z,z) + c = -2i`. -/
theorem claim1_counterexample :
    Ship.eval ⟨-1, 1⟩ ⟨0, 0⟩ = ⟨0, 2⟩ ∧
    add ⟨0, 0⟩ (multiply ⟨-1, 1⟩ ⟨-1, 1⟩) = ⟨0, -2⟩ ∧
    Ship.eval ⟨-1, 1⟩ ⟨0, 0⟩ ≠ add ⟨0, 0⟩ (multiply ⟨-1, 1⟩ ⟨-1, 1⟩) := by
  refine ⟨?_, ?_, ?_⟩ <;>
    simp [Ship.eval, Ship.absZ, add, multiply, Cx.mk.injEq] <;> norm_num

/-- C1 (amended): the `part_000` evaluator computes the standard quadratic
map `z² + c` (interpreted in `ℂ`), with no component-wise absolute value
taken of `z` before squaring; the `fractals.js`/`part_001` evaluator
instead squares the component-wise absolute value `(|Re z|, |Im z|)`
(burning-ship family). -/
theorem claim1_theorem (z c : Cx) :
    toC (eval z c) = toC z ^ 2 + toC c ∧
    Ship.eval z c = add c (multiply (Ship.absZ z) (Ship.absZ z)) := by
  constructor
  · unfold eval
    rw [sq, toC_add, toC_multiply]
    ring
  · rfl

/-- C2 (code_bug evaluation): the mapping `xf*x - rxmax` sends pixel
`(0,0)` of a 100×100 surface with region `[1/2, 1] × [1/2, 1]` to
`c = (-1, -1)`, which lies outside the caller-supplied region
(`c.re < x_min`), although the source documents graphing "within the
range of values specified". -/
theorem claim2_theorem :
    pixelToC 100 100 (1/2) 1 (1/2) 1 0 0 = ⟨-1, -1⟩ ∧
    (pixelToC 100 100 (1/2) 1 (1/2) 1 0 0).real < 1/2 ∧
    (pixelToC 100 100 (1/2) 1 (1/2) 1 0 0).imaginary < 1/2 := by
  refine ⟨?_, ?_, ?_⟩ <;> simp [pixelToC, Cx.mk.injEq] <;> norm_num

/-- C3 (counterexample): `c = 2` with `max_iter = 2` is a confirmed escape
(`count = 1 < max_iter`), yet the coloring code takes the plain path
`colors[count]`, not the smooth path, because its guard is
`count < max_iter - 1`. -/
theorem claim3_counterexample :
    escape 2 ⟨2, 0⟩ = (1, 4) ∧ 1 < 2 ∧
    colorPath 2 1 ≠ ColorPath.smooth ∧ colorPath 2 1 = ColorPath.plain 1 :=
  ⟨escape_two_iter2, by decide, by decide, by decide⟩

/-- C3 (amended): the smooth-coloring path is taken exactly when
`count < max_iter - 1`; a confirmed escape with `count = max_iter - 1`
uses the plain palette color at index `count`, and a never-escaping
result (`count = max_iter`) uses the reserved in-set color at index
`max_iter` directly. -/
theorem claim3_theorem (mi : ℕ) (c : Cx) (hmi : 0 < mi) :
    ((escape mi c).1 = mi → colorPath mi (escape mi c).1 = ColorPath.plain mi) ∧
    ((escape mi c).1 + 1 < mi → colorPath mi (escape mi c).1 = ColorPath.smooth) ∧
    ((escape mi c).1 + 1 = mi →
      colorPath mi (escape mi c).1 = ColorPath.plain (escape mi c).1) := by
  refine ⟨?_, ?_, ?_⟩ <;> intro h <;> unfold colorPath
  · rw [if_neg (by omega), h]
  · rw [if_pos (by omega)]
  · rw [if_neg (by omega)]

/-- C3 (witness): at `max_iter = 3`, `c = 2` the escape has
`count + 1 = 2 < 3` and the smooth path is taken. -/
theorem claim3_witness :
    colorPath 3 (escape 3 ⟨2, 0⟩).1 = ColorPath.smooth :=
  (claim3_theorem 3 ⟨2, 0⟩ (by decide)).2.1 escape_two_iter3_count_succ

/-- C4 (counterexample): `c = 100` with `max_iter = 4` escapes with
`count = 1`, `m = 10000`, enters the smooth-coloring branch
(`1 < 4 - 1`), and the palette index `Math.floor(it)` computed there is
negative — the code clamps nothing, contradicting the claimed index range
`0..max_iter`. -/
theorem claim4_counterexample :
    escape 4 ⟨100, 0⟩ = (1, 10000) ∧
    colorPath 4 1 = ColorPath.smooth ∧
    ⌊(1 : ℝ) + 1 - Real.log (Real.log 10000 / 2 / Real.log 2) / Real.log 2⌋ < 0 :=
  ⟨escape_hundred_iter4, by decide, floor_it_neg_at_10000⟩

/-- C4 (amended): the code does not clamp the smooth-coloring palette
indices; the lower index `floor(it)` can be negative for large escape
magnitudes (see the counterexample) and there is no NaN fallback, but the
escape invariant `m ≥ 4` keeps `nu ≥ 0`, so for every escape entering the
smooth branch (`count + 1 < max_iter`) the upper index
`floor(it) + 1` never exceeds `max_iter`. -/
theorem claim4_theorem (mi count : ℕ) (m : ℚ) (c : Cx)
    (hesc : escape mi c = (count, m)) (hs : count + 1 < mi) :
    4 ≤ m ∧
    0 ≤ Real.log (Real.log (m : ℝ) / 2 / Real.log 2) / Real.log 2 ∧
    ⌊(count : ℝ) + 1 - Real.log (Real.log (m : ℝ) / 2 / Real.log 2) / Real.log 2⌋ + 1
      ≤ (mi : ℤ) := by
  have hm4 : 4 ≤ m := by
    have h := escapeAux_exit_ge_four c mi ⟨0, 0⟩ 0 0
    rw [show escapeAux c mi ⟨0, 0⟩ 0 0 = escape mi c from rfl, hesc] at h
    exact h (by simpa using by omega)
  have hl2 : (0 : ℝ) < Real.log 2 := Real.log_pos (by norm_num)
  have hm4R : (4 : ℝ) ≤ (m : ℝ) := by exact_mod_cast hm4
  have hlogm : 2 * Real.log 2 ≤ Real.log (m : ℝ) := by
    have h4 : Real.log 4 ≤ Real.log (m : ℝ) :=
      Real.log_le_log (by norm_num) hm4R
    have hlog4 : Real.log 4 = 2 * Real.log 2 := by
      rw [show (4 : ℝ) = 2 ^ 2 by norm_num, Real.log_pow]
      norm_num
    linarith
  have hx1 : (1 : ℝ) ≤ Real.log (m : ℝ) / 2 / Real.log 2 := by
    rw [le_div_iff₀ hl2, le_div_iff₀ (by norm_num : (0:ℝ) < 2)] at *
    linarith
  have hnu : 0 ≤ Real.log (Real.log (m : ℝ) / 2 / Real.log 2) / Real.log 2 :=
    div_nonneg (Real.log_nonneg hx1) hl2.le
  refine ⟨hm4, hnu, ?_⟩
  have hit : (count : ℝ) + 1 - Real.log (Real.log (m : ℝ) / 2 / Real.log 2) / Real.log 2
      ≤ ((count + 1 : ℕ) : ℝ) := by
    push_cast
    linarith
  have hfl : ⌊(count : ℝ) + 1 - Real.log (Real.log (m : ℝ) / 2 / Real.log 2) / Real.log 2⌋
      ≤ (count + 1 : ℕ) := by
    calc ⌊(count : ℝ) + 1 - Real.log (Real.log (m : ℝ) / 2 / Real.log 2) / Real.log 2⌋
        ≤ ⌊((count + 1 : ℕ) : ℝ)⌋ := Int.floor_le_floor hit
    _ = ((count + 1 : ℕ) : ℤ) := Int.floor_natCast _
  omega

/-- C4 (witness): at `max_iter = 3`, `c = 2` (so `count = 1`, `m = 4`) the
amended bound applies. -/
theorem claim4_witness :
    4 ≤ (4 : ℚ) ∧
    0 ≤ Real.log (Real.log ((4 : ℚ) : ℝ) / 2 / Real.log 2) / Real.log 2 ∧
    ⌊((1 : ℕ) : ℝ) + 1 - Real.log (Real.log ((4 : ℚ) : ℝ) / 2 / Real.log 2) / Real.log 2⌋ + 1
      ≤ ((3 : ℕ) : ℤ) :=
  claim4_theorem 3 1 4 ⟨2, 0⟩ escape_two_iter3 (by decide)

/-- C5 (counterexample): at `W = 61`, `H = 10` the tile width is
`round(61/40) = 2`, and the 31st tick — the last tile of the first row,
whose cursor the first 30 ticks reach — fills the cell `(61, 0)`, i.e.
issues a write at `x = 61 ≥ W`, outside the surface. -/
theorem claim5_counterexample :
    xdOf 61 = 2 ∧ ydOf 10 = 1 ∧
    fillsCell 61 10 (xdOf 61) (ydOf 10) (stepN 61 10 (xdOf 61) (ydOf 10) 30) (61, 0)
      = true ∧ 61 ≤ 61 := by
  refine ⟨xdOf_61, ydOf_10, ?_, le_refl 61⟩
  rw [xdOf_61, ydOf_10]
  decide

/-- C5 (amended): for tile sizes `round(W/40) ≥ 1` and `round(H/20) ≥ 1`
the session reaches a completed state after finitely many ticks and stays
there, and the painted tiles cover every pixel of the surface; but writes
are not confined to the surface (the counterexample exhibits a fill at
`x = W`, and the final wrap always paints one tile row below the bottom
edge), and with a zero tile dimension (`W ≤ 19` or `H ≤ 9`) the session
never completes. -/
theorem claim5_theorem (W H : ℕ) (hx1 : 1 ≤ xdOf W) (hy1 : 1 ≤ ydOf H) :
    (∃ N, isDone W H (stepN W H (xdOf W) (ydOf H) N) = true ∧
      ∀ n, N ≤ n → stepN W H (xdOf W) (ydOf H) n = stepN W H (xdOf W) (ydOf H) N) ∧
    (∀ x y, x < W → y < H →
      ∃ n, fillsCell W H (xdOf W) (ydOf H) (stepN W H (xdOf W) (ydOf H) n) (x, y) = true) ∧
    (∀ n p, isDone W H (stepN W H (xdOf W) (ydOf H) n) = true →
      fillsCell W H (xdOf W) (ydOf H) (stepN W H (xdOf W) (ydOf H) n) p = false) := by
  have hW : 1 ≤ W := by
    rw [xdOf_eq] at hx1
    omega
  have hH : 1 ≤ H := by
    rw [ydOf_eq] at hy1
    omega
  exact scheduler_run W H (xdOf W) (ydOf H) hx1 hy1 hW hH

/-- C5 (witness): a 40×20 session (tile size 1×1) covers pixel `(0,0)`. -/
theorem claim5_witness :
    ∃ n, fillsCell 40 20 (xdOf 40) (ydOf 20) (stepN 40 20 (xdOf 40) (ydOf 20) n) (0, 0)
      = true :=
  (claim5_theorem 40 20 one_le_xdOf_40 one_le_ydOf_20).2.1 0 0 (by decide) (by decide)

/-- C6: once a supersede event (a new render request for the same surface)
has been processed, the superseded session performs zero surface writes
over any subsequent event sequence — its ticks are dropped because its
handle is invalidated. -/
theorem claim6_theorem (W H xd yd : ℕ) (st : TwoSessions)
    (evs1 evs2 : List SEvent) :
    (srun W H xd yd (srun W H xd yd st (evs1 ++ [SEvent.supersede])).1 evs2).2 = 0 :=
  (srun_dead W H xd yd evs2 _ (srun_supersede_dead W H xd yd evs1 st)).1

/-- C7 (counterexample): the interpolator floors instead of rounding: at
`c1 = #000000`, `c2 = #ff0000`, `t = 1/2` the red channel of the result is
`127`, while the spec's `round(|c1 + t*(c2-c1)|)` clamped into `[0,255]`
is `128`. -/
theorem claim7_counterexample :
    linear_interpolate "#000000" "#ff0000" (1/2) = some "#7f0000" ∧
    parseColor "#7f0000" = some (127, 0, 0) ∧
    specInterpChannel 0 255 (1/2) = 128 ∧ (127 : ℕ) ≠ 128 := by
  refine ⟨?_, by decide, specInterpChannel_half, by decide⟩
  have hp1 : parseColor "#000000" = some (0, 0, 0) := by decide
  have hp2 : parseColor "#ff0000" = some (255, 0, 0) := by decide
  rw [li_parsed (1/2) hp1 hp2, interpChannel_half,
    interpChannel_eval 0 0 (1/2) 0 (by norm_num) (by norm_num) (by norm_num)]
  rfl

/-- C7 (amended): for well-formed inputs the interpolator never fails and
each output channel is `floor(|c1 + t*(c2-c1)|)` (floored, not rounded,
and not clamped); when `t ∈ [0,1]` every channel stays in `[0,255]` and
the result is a well-formed color. -/
theorem claim7_theorem (c1 c2 : String) (t : ℚ) (r1 g1 b1 r2 g2 b2 : ℕ)
    (h1 : parseColor c1 = some (r1, g1, b1)) (h2 : parseColor c2 = some (r2, g2, b2))
    (ht0 : 0 ≤ t) (ht1 : t ≤ 1) :
    ∃ s, linear_interpolate c1 c2 t = some s ∧ isColor s = true ∧
      parseColor s = some (interpChannel r1 r2 t, interpChannel g1 g2 t,
        interpChannel b1 b2 t) := by
  obtain ⟨hs1, hs3, hs5⟩ := parseColor_slices h1
  obtain ⟨ht1', ht3, ht5⟩ := parseColor_slices h2
  have hr : interpChannel r1 r2 t < 256 := by
    have := interpChannel_le_255 t (sliceHex_le_255 hs1) (sliceHex_le_255 ht1') ht0 ht1
    omega
  have hg : interpChannel g1 g2 t < 256 := by
    have := interpChannel_le_255 t (sliceHex_le_255 hs3) (sliceHex_le_255 ht3) ht0 ht1
    omega
  have hb : interpChannel b1 b2 t < 256 := by
    have := interpChannel_le_255 t (sliceHex_le_255 hs5) (sliceHex_le_255 ht5) ht0 ht1
    omega
  refine ⟨_, li_parsed t h1 h2, ?_, ?_⟩
  · exact (mkColor_parse _ _ _ hr hg hb).1
  · exact (mkColor_parse _ _ _ hr hg hb).2

/-- C7 (witness): at `t = 0` on two concrete colors the interpolator
returns a well-formed color whose channels are the floored blends. -/
theorem claim7_witness :
    ∃ s, linear_interpolate "#000000" "#ff0000" 0 = some s ∧ isColor s = true ∧
      parseColor s = some (interpChannel 0 255 0, interpChannel 0 0 0,
        interpChannel 0 0 0) :=
  claim7_theorem "#000000" "#ff0000" 0 0 0 0 255 0 0 (by decide) (by decide)
    (le_refl 0) zero_le_one

/-- C8: on well-formed colors and `t ∈ [0,1]`, interpolation of a color
with itself returns the same color, and the endpoints `t = 0`, `t = 1`
return the first and the second color respectively — as RGB triples, i.e.
up to re-encoding of each channel. -/
theorem claim8_theorem (c a b : String) (t : ℚ)
    (hc : isColor c = true) (ha : isColor a = true) (hb : isColor b = true)
    (ht0 : 0 ≤ t) (ht1 : t ≤ 1) :
    (linear_interpolate c c t).bind parseColor = parseColor c ∧
    (linear_interpolate a b 0).bind parseColor = parseColor a ∧
    (linear_interpolate a b 1).bind parseColor = parseColor b := by
  obtain ⟨rc, gc, bc, hpc, hrc, hgc, hbc⟩ := isColor_parse hc
  obtain ⟨ra, ga, ba, hpa, hra, hga, hba⟩ := isColor_parse ha
  obtain ⟨rb, gb, bb, hpb, hrb, hgb, hbb⟩ := isColor_parse hb
  refine ⟨?_, ?_, ?_⟩
  · rw [li_parsed t hpc hpc, Option.some_bind, interpChannel_self, interpChannel_self,
      interpChannel_self, (mkColor_parse rc gc bc hrc hgc hbc).2, hpc]
  · rw [li_parsed 0 hpa hpb, Option.some_bind, interpChannel_zero, interpChannel_zero,
      interpChannel_zero, (mkColor_parse ra ga ba hra hga hba).2, hpa]
  · rw [li_parsed 1 hpa hpb, Option.some_bind, interpChannel_one, interpChannel_one,
      interpChannel_one, (mkColor_parse rb gb bb hrb hgb hbb).2, hpb]

/-- C8 (witness): the identities at the palette's anchor colors and
`t = 0`. -/
theorem claim8_witness :
    (linear_interpolate "#773399" "#773399" 0).bind parseColor = parseColor "#773399" ∧
    (linear_interpolate "#773399" "#CCAA66" 0).bind parseColor = parseColor "#773399" ∧
    (linear_interpolate "#773399" "#CCAA66" 1).bind parseColor = parseColor "#CCAA66" :=
  claim8_theorem "#773399" "#773399" "#CCAA66" 0 (by decide) (by decide) (by decide)
    (le_refl 0) zero_le_one

/-- C9: for every `max_iter > 0` (and every blend-weight function standing
for `sin(i*factor)`), the palette has exactly `max_iter + 1` entries and
its entry at index `max_iter` is pure black.  (Determinism is inherent:
`palette` is a pure function of its arguments.) -/
theorem claim9_theorem (w : ℕ → ℚ) (mi : ℕ) (hmi : 0 < mi) :
    (palette w mi).length = mi + 1 ∧ (palette w mi)[mi]? = some "#000000" := by
  constructor
  · simp [palette]
  · unfold palette
    rw [List.getElem?_append_right (by simp)]
    simp

/-- C9 (witness): the palette for `max_iter = 2` (with the zero weight
function) has 3 entries ending in black. -/
theorem claim9_witness :
    (palette (fun _ => 0) 2).length = 2 + 1 ∧
    (palette (fun _ => 0) 2)[2]? = some "#000000" :=
  claim9_theorem (fun _ => 0) 2 (by decide)

/-- C10: whenever the escape loop exits with `count < max_iter`, the final
squared magnitude satisfies `m ≥ 4`; consequently
`ln m ≥ ln 4 > 0` and the smooth-coloring logarithms are applied only to
strictly positive arguments (`m > 0` and `ln m / 2 / ln 2 > 0`). -/
theorem claim10_theorem (mi : ℕ) (c : Cx) (h : (escape mi c).1 < mi) :
    4 ≤ (escape mi c).2 ∧
    Real.log 4 ≤ Real.log (((escape mi c).2 : ℚ) : ℝ) ∧
    0 < Real.log (((escape mi c).2 : ℚ) : ℝ) ∧
    0 < Real.log (((escape mi c).2 : ℚ) : ℝ) / 2 / Real.log 2 := by
  have hm4 : 4 ≤ (escape mi c).2 := by
    have hh := escapeAux_exit_ge_four c mi ⟨0, 0⟩ 0 0
    exact hh (by simpa using h)
  have hm4R : (4 : ℝ) ≤ (((escape mi c).2 : ℚ) : ℝ) := by exact_mod_cast hm4
  have hl2 : (0 : ℝ) < Real.log 2 := Real.log_pos (by norm_num)
  have hlog : Real.log 4 ≤ Real.log (((escape mi c).2 : ℚ) : ℝ) :=
    Real.log_le_log (by norm_num) hm4R
  have hpos : 0 < Real.log (((escape mi c).2 : ℚ) : ℝ) :=
    Real.log_pos (by linarith)
  exact ⟨hm4, hlog, hpos, by positivity⟩

/-- C10 (witness): at `max_iter = 3`, `c = 2` the loop exits with
`count = 1 < 3` and the invariant holds. -/
theorem claim10_witness :
    4 ≤ (escape 3 ⟨2, 0⟩).2 ∧
    Real.log 4 ≤ Real.log (((escape 3 ⟨2, 0⟩).2 : ℚ) : ℝ) ∧
    0 < Real.log (((escape 3 ⟨2, 0⟩).2 : ℚ) : ℝ) ∧
    0 < Real.log (((escape 3 ⟨2, 0⟩).2 : ℚ) : ℝ) / 2 / Real.log 2 :=
  claim10_theorem 3 ⟨2, 0⟩ escape_two_iter3_count

end Frac
